import Mathlib

set_option maxRecDepth 8000

/-!
Verification of the namespace-rewriter scripts
`fix-namespaces.py` and `fix-ns.py` (repository `core-libraries-dotnet`).

Both scripts apply three `re.sub` substitutions to the text of each
discovered `.cs` file and write the file back only when the text changed.
Text is modelled as `List Char`; every definition below is translated
from the Python source.
-/

/-- A token of a compiled regular-expression pattern.  The three patterns in
the source use only ordinary characters and backslash-escaped characters
(no quantifiers, classes or groups), so a pattern compiles to a list of
one-character tokens. -/
inductive RTok where
  | lit : Char → RTok
  | esc : Char → RTok
deriving DecidableEq

/-- Matching of one token against one character, following Python `re`
semantics for the fragment the source uses: an ordinary `.` matches any
character except a newline; every other ordinary character and every
escaped character matches exactly itself. -/
def RTok.matches1 : RTok → Char → Bool
  | .lit c, a => if c = '.' then decide (a ≠ '\n') else decide (a = c)
  | .esc c, a => decide (a = c)

/-- A token list matches a character list exactly when they have the same
length and corresponding positions match. -/
def tokensMatch : List RTok → List Char → Bool
  | [], [] => true
  | t :: ts, a :: s => t.matches1 a && tokensMatch ts s
  | _ :: _, [] => false
  | [], _ :: _ => false

/-- Compilation of a raw pattern string into tokens: a backslash escapes the
following character, every other character is an ordinary token.  This is
Python `re` compilation restricted to the fragment the source patterns use. -/
def tokenize : List Char → List RTok
  | [] => []
  | '\\' :: c :: rest => RTok.esc c :: tokenize rest
  | c :: rest => RTok.lit c :: tokenize rest

/-- The scan of `re.sub` for a non-empty all-single-character-token pattern:
at each position, if the pattern matches the next `ts.length + 1`
characters, emit the replacement and resume after the match (leftmost,
non-overlapping); otherwise keep the character and move on. -/
def rsubAux (t : RTok) (ts : List RTok) (repl : List Char) : List Char → List Char
  | [] => []
  | a :: s =>
    if tokensMatch (t :: ts) ((a :: s).take (ts.length + 1)) then
      repl ++ rsubAux t ts repl (s.drop ts.length)
    else
      a :: rsubAux t ts repl s
termination_by l => l.length
decreasing_by
  · simp only [List.length_drop, List.length_cons]
    omega
  · simp only [List.length_cons]
    omega

/-- The call `re.sub(pattern, repl, s)` for the patterns of the source (all
of which are non-empty). -/
def rsub (pat : List RTok) (repl : List Char) (s : List Char) : List Char :=
  match pat with
  | [] => s
  | t :: ts => rsubAux t ts repl s

/-- Plain (non-regex) replace-all of a non-empty literal pattern `c :: cs`:
the same leftmost non-overlapping scan, with literal comparison. -/
def replaceAllAux (c : Char) (cs : List Char) (repl : List Char) : List Char → List Char
  | [] => []
  | a :: s =>
    if c :: cs <+: a :: s then repl ++ replaceAllAux c cs repl (s.drop cs.length)
    else a :: replaceAllAux c cs repl s
termination_by l => l.length
decreasing_by
  · simp only [List.length_drop, List.length_cons]
    omega
  · simp only [List.length_cons]
    omega

/-- Plain replace-all of a literal pattern. -/
def replaceAll (pat repl s : List Char) : List Char :=
  match pat with
  | [] => s
  | c :: cs => replaceAllAux c cs repl s

/-! ### The fixed rule list of the source -/

/-- Raw text of the first pattern, `using Core\.Libraries\.Application\.Commands;`. -/
def pat1raw : List Char := "using Core\\.Libraries\\.Application\\.Commands;".data

/-- Raw text of the second pattern, `using Core\.Libraries\.Application\.Queries;`. -/
def pat2raw : List Char := "using Core\\.Libraries\\.Application\\.Queries;".data

/-- Raw text of the third pattern, `using Techleap\.Core\.Domain\.Exceptions;`. -/
def pat3raw : List Char := "using Techleap\\.Core\\.Domain\\.Exceptions;".data

/-- Replacement of the first rule. -/
def rep1 : List Char := "using Core.LibrariesApplication.Commands;".data

/-- Replacement of the second rule. -/
def rep2 : List Char := "using Core.LibrariesApplication.Queries;".data

/-- Replacement of the third rule. -/
def rep3 : List Char := "using Core.Libraries.Domain.Exceptions;".data

/-- The literal string matched by the first pattern (its text with escapes
removed). -/
def lit1 : List Char := "using Core.Libraries.Application.Commands;".data

/-- The literal string matched by the second pattern. -/
def lit2 : List Char := "using Core.Libraries.Application.Queries;".data

/-- The literal string matched by the third pattern. -/
def lit3 : List Char := "using Techleap.Core.Domain.Exceptions;".data

/-- The `replacements` list of `fix-namespaces.py`, in source order, with
each pattern compiled to tokens. -/
def replacements : List (List RTok × List Char) :=
  [(tokenize pat1raw, rep1), (tokenize pat2raw, rep2), (tokenize pat3raw, rep3)]

/-- The replacement loop of `fix-namespaces.py`:
`for pattern, replacement in replacements: content = re.sub(pattern, replacement, content)`,
a left fold of `re.sub` over the rule list. -/
def apply_rules (content : List Char) : List Char :=
  replacements.foldl (fun acc pr => rsub pr.1 pr.2 acc) content

/-- The three sequential `re.sub` calls in `fix_file` of `fix-ns.py`. -/
def fixNsSub (content : List Char) : List Char :=
  rsub (tokenize pat3raw) rep3
    (rsub (tokenize pat2raw) rep2
      (rsub (tokenize pat1raw) rep1 content))

/-- The same transformation written with plain literal replace-all, the way
the specification describes it ("three sequential plain (non-regex)
replace-all substitutions of those literal strings"). -/
def apply_rules_literal (content : List Char) : List Char :=
  replaceAll lit3 rep3 (replaceAll lit2 rep2 (replaceAll lit1 rep1 content))

/-! ### Per-file processing and the run loops -/

/-- The two per-file exception kinds the specification names: a read/write
failure and a text-decoding failure.  Both scripts catch them with a bare
`except Exception`. -/
inductive FileErr where
  | ioError : FileErr
  | decodeError : FileErr
deriving DecidableEq

/-- Failure to open or list the discovery root. -/
inductive TravErr where
  | rootMissing : TravErr
  | rootInaccessible : TravErr
deriving DecidableEq

/-- One printed line, one constructor per `print` in the source:
`found n` is `Found {n} C# files to process...`, `fixedFile p` is
`Fixed: {p}`, `errorLine p e` is `Error processing {p}: {e}`, `done` is
`Done!`, `fixedCount n` is `Fixed {n} files`. -/
inductive OutLine where
  | found : Nat → OutLine
  | fixedFile : String → OutLine
  | errorLine : String → FileErr → OutLine
  | done : OutLine
  | fixedCount : Nat → OutLine
deriving DecidableEq

/-- The function `fix_file` of `fix-ns.py`.  Input is the read outcome.
Result: the returned boolean, the content written back (if any), and the
lines printed to `sys.stderr`.  On an exception the handler prints the
error with the path to stderr and the function returns `False`. -/
def fix_file (path : String) (input : Except FileErr (List Char)) :
    Bool × Option (List Char) × List OutLine :=
  match input with
  | .error e => (false, none, [OutLine.errorLine path e])
  | .ok content =>
      let c := fixNsSub content
      if c ≠ content then (true, some c, []) else (false, none, [])

/-- Result of one whole run of `fix-ns.py`: the `fixed` counter, the lines
printed to stdout and to stderr, the files written, and the process exit
status. -/
structure RunResult where
  fixedCount : Nat
  stdout : List OutLine
  stderr : List OutLine
  writes : List (String × List Char)
  exitCode : Nat
deriving DecidableEq

/-- One iteration of the `__main__` loop of `fix-ns.py`: call `fix_file`,
increment `fixed` when it returned `True`, record the stderr lines and the
write. -/
def fixNsStep (acc : RunResult) (f : String × Except FileErr (List Char)) :
    RunResult :=
  let res := fix_file f.1 f.2
  { acc with
    fixedCount := acc.fixedCount + (if res.1 then 1 else 0),
    stderr := acc.stderr ++ res.2.2,
    writes := acc.writes ++ (match res.2.1 with
      | some c => [(f.1, c)]
      | none => []) }

/-- The `__main__` loop of `fix-ns.py` over an already-discovered file list:
`fixed` starts at 0 and increments when `fix_file` returns `True`; stderr
lines and writes accumulate in order; at the end one line
`Fixed {fixed} files` goes to stdout, and the interpreter exits with
status 0 (every per-file exception was caught). -/
def runFixNsFiles (files : List (String × Except FileErr (List Char))) : RunResult :=
  let r := files.foldl fixNsStep
    { fixedCount := 0, stdout := [], stderr := [], writes := [], exitCode := 0 }
  { r with stdout := [OutLine.fixedCount r.fixedCount] }

/-- Python `os.walk` with its default `onerror=None` ignores the error raised when
the root cannot be scanned, so an inaccessible root produces no entries at
all (documented stdlib behaviour of `os.walk`). -/
def walkFiles (root : Except TravErr (List (String × Except FileErr (List Char)))) :
    List (String × Except FileErr (List Char)) :=
  match root with
  | .error _ => []
  | .ok fs => fs

/-- A whole run of `fix-ns.py`, starting from the outcome of opening the
discovery root. -/
def runFixNs (root : Except TravErr (List (String × Except FileErr (List Char)))) :
    RunResult :=
  runFixNsFiles (walkFiles root)

/-- The body of the per-file loop of `fix-namespaces.py`: apply the rules,
write back only on change and print `Fixed: {path}`; a caught exception
prints `Error processing {path}: {e}` with a plain `print`, i.e. to
stdout. -/
def processFile (path : String) (input : Except FileErr (List Char)) :
    Option (List Char) × List OutLine :=
  match input with
  | .error e => (none, [OutLine.errorLine path e])
  | .ok content =>
      let c := apply_rules content
      if c ≠ content then (some c, [OutLine.fixedFile path]) else (none, [])

/-- Output of one whole run of `fix-namespaces.py`.  The script only ever
prints to stdout; its stderr stays empty. -/
structure NsRunResult where
  stdout : List OutLine
  stderr : List OutLine
  writes : List (String × List Char)
deriving DecidableEq

/-- A whole run of `fix-namespaces.py` over the discovered file list: a
preamble with the discovered count, the per-file lines in order, and a
trailing `Done!`; no line ever goes to stderr. -/
def runFixNamespaces (files : List (String × Except FileErr (List Char))) :
    NsRunResult :=
  { stdout := OutLine.found files.length ::
      (files.flatMap fun f => (processFile f.1 f.2).2) ++ [OutLine.done],
    stderr := [],
    writes := files.filterMap fun f =>
      ((processFile f.1 f.2).1).map (fun c => (f.1, c)) }

/-- A file read without error whose content the rules change. -/
def fileChanged (f : String × Except FileErr (List Char)) : Bool :=
  match f.2 with
  | .error _ => false
  | .ok c => decide (fixNsSub c ≠ c)

/-! ### Equation lemmas for the scanners -/

theorem replaceAllAux_nil (c : Char) (cs r : List Char) :
    replaceAllAux c cs r [] = [] := by
  rw [replaceAllAux]

theorem replaceAllAux_cons_pos {c : Char} {cs : List Char} (r : List Char)
    {a : Char} {s : List Char} (h : c :: cs <+: a :: s) :
    replaceAllAux c cs r (a :: s) = r ++ replaceAllAux c cs r (s.drop cs.length) := by
  rw [replaceAllAux, if_pos h]

theorem replaceAllAux_cons_neg {c : Char} {cs : List Char} (r : List Char)
    {a : Char} {s : List Char} (h : ¬ c :: cs <+: a :: s) :
    replaceAllAux c cs r (a :: s) = a :: replaceAllAux c cs r s := by
  rw [replaceAllAux, if_neg h]

theorem rsubAux_nil (t : RTok) (ts : List RTok) (repl : List Char) :
    rsubAux t ts repl [] = [] := by
  rw [rsubAux]

theorem rsubAux_cons_pos {t : RTok} {ts : List RTok} (repl : List Char)
    {a : Char} {s : List Char}
    (h : tokensMatch (t :: ts) ((a :: s).take (ts.length + 1)) = true) :
    rsubAux t ts repl (a :: s) = repl ++ rsubAux t ts repl (s.drop ts.length) := by
  rw [rsubAux, if_pos h]

theorem rsubAux_cons_neg {t : RTok} {ts : List RTok} (repl : List Char)
    {a : Char} {s : List Char}
    (h : ¬ tokensMatch (t :: ts) ((a :: s).take (ts.length + 1)) = true) :
    rsubAux t ts repl (a :: s) = a :: rsubAux t ts repl s := by
  rw [rsubAux, if_neg h]

/-! ### Generic prefix and infix helpers -/

theorem prefix_append_split {α : Type _} {p u v : List α} (h : p <+: u ++ v) :
    p <+: u ∨ ∃ w, p = u ++ w ∧ w <+: v := by
  induction u generalizing p with
  | nil => exact Or.inr ⟨p, rfl, h⟩
  | cons x u ih =>
    cases p with
    | nil => exact Or.inl List.nil_prefix
    | cons y p =>
      rw [List.cons_append, List.cons_prefix_cons] at h
      obtain ⟨rfl, h2⟩ := h
      rcases ih h2 with h3 | ⟨w, rfl, hw⟩
      · exact Or.inl (List.cons_prefix_cons.mpr ⟨rfl, h3⟩)
      · exact Or.inr ⟨w, rfl, hw⟩

theorem infix_iff_exists_drop {α : Type _} {p s : List α} :
    p <:+: s ↔ ∃ k, p <+: s.drop k := by
  constructor
  · rintro ⟨u, v, rfl⟩
    refine ⟨u.length, ?_⟩
    rw [List.append_assoc, List.drop_left]
    exact List.prefix_append p v
  · rintro ⟨k, h⟩
    exact (h.isInfix).trans (List.drop_suffix k s).isInfix

theorem infix_of_infix_drop {α : Type _} {p s : List α} {k : Nat}
    (h : p <:+: s.drop k) : p <:+: s :=
  h.trans (List.drop_suffix k s).isInfix

theorem infix_append_right_ext {α : Type _} {p A B : List α} (h : p <:+: B) :
    p <:+: A ++ B :=
  h.trans (List.suffix_append A B).isInfix

theorem drop_nonempty {α : Type _} {A : List α} {k : Nat} (hk : k < A.length) :
    A.drop k ≠ [] := by
  intro hnil
  have := List.length_drop k A
  rw [hnil] at this
  simp at this
  omega

theorem infix_append_split {α : Type _} {q A B : List α} (h : q <:+: A ++ B) :
    q <:+: A ∨ q <:+: B ∨
      ∃ u v, q = u ++ v ∧ u ≠ [] ∧ v ≠ [] ∧ u <:+ A ∧ v <+: B := by
  rw [infix_iff_exists_drop] at h
  obtain ⟨k, hk⟩ := h
  by_cases hkA : A.length ≤ k
  · right; left
    rw [List.drop_append_eq_append_drop, List.drop_eq_nil_of_le hkA,
      List.nil_append] at hk
    exact infix_of_infix_drop ((List.prefix_iff_eq_take.mp hk ▸ List.take_prefix _ _).isInfix)
  · push_neg at hkA
    rw [List.drop_append_eq_append_drop, Nat.sub_eq_zero_of_le (Nat.le_of_lt hkA),
      List.drop_zero] at hk
    rcases prefix_append_split hk with h1 | ⟨w, rfl, hw⟩
    · exact Or.inl (h1.isInfix.trans (List.drop_suffix k A).isInfix)
    · by_cases hwnil : w = []
      · subst hwnil
        rw [List.append_nil]
        exact Or.inl (List.drop_suffix k A).isInfix
      · exact Or.inr (Or.inr ⟨A.drop k, w, rfl, drop_nonempty hkA, hwnil,
          List.drop_suffix k A, hw⟩)

/-! ### Side conditions on a rule, decided later on the concrete rule list -/

/-- Every nonempty proper suffix of `q` is prefix-incomparable with `r`. -/
def SufIncomp (q r : List Char) : Prop :=
  ∀ v ∈ q.tails, v ≠ [] → v ≠ q → ¬ v <+: r ∧ ¬ r <+: v

/-- No nonempty proper prefix of `q` is a suffix of `r`. -/
def PreNotSuf (q r : List Char) : Prop :=
  ∀ u ∈ q.inits, u ≠ [] → u ≠ q → ¬ u <:+ r

/-- No nonempty suffix of `r` is a prefix of `q`. -/
def SufNotPre (r q : List Char) : Prop :=
  ∀ u ∈ r.tails, u ≠ [] → ¬ u <+: q

instance (q r : List Char) : Decidable (SufIncomp q r) := by
  unfold SufIncomp; infer_instance

instance (q r : List Char) : Decidable (PreNotSuf q r) := by
  unfold PreNotSuf; infer_instance

instance (r q : List Char) : Decidable (SufNotPre r q) := by
  unfold SufNotPre; infer_instance

/-! ### Behaviour of the literal scanner -/

/-- On text with no occurrence of the pattern, the scan is the identity. -/
theorem replaceAllAux_eq_self {c : Char} {cs r : List Char} :
    ∀ s, ¬ (c :: cs) <:+: s → replaceAllAux c cs r s = s := by
  intro s
  induction s with
  | nil => intro _; exact replaceAllAux_nil c cs r
  | cons a s ih =>
    intro h
    have hnp : ¬ c :: cs <+: a :: s := fun hp => h hp.isInfix
    rw [replaceAllAux_cons_neg r hnp, ih]
    intro hi
    exact h (List.infix_cons_iff.mpr (Or.inr hi))

/-- A match at the head is replaced and the scan resumes after it. -/
theorem replaceAllAux_append_pat (c : Char) (cs r x : List Char) :
    replaceAllAux c cs r ((c :: cs) ++ x) = r ++ replaceAllAux c cs r x := by
  rw [List.cons_append, replaceAllAux_cons_pos r (by exact ⟨x, by simp⟩),
    List.drop_left]

/-- If no match starts inside `w`, the scan copies `w` and continues on `x`. -/
theorem replaceAllAux_skip {c : Char} {cs r : List Char} :
    ∀ w x, (∀ k, k < w.length → ¬ (c :: cs) <+: (w.drop k ++ x)) →
      replaceAllAux c cs r (w ++ x) = w ++ replaceAllAux c cs r x := by
  intro w
  induction w with
  | nil => intro x _; rfl
  | cons b w ih =>
    intro x h
    have h0 : ¬ (c :: cs) <+: (b :: (w ++ x)) := by
      have := h 0 (by simp)
      simpa using this
    rw [List.cons_append, replaceAllAux_cons_neg r h0, ih x]
    · rfl
    · intro k hk
      have := h (k + 1) (by simp; omega)
      simpa using this

/-- A nonempty proper suffix of `q` that is a prefix of the scan's output is
already a prefix of the input, provided such suffixes are
prefix-incomparable with the replacement `r`. -/
theorem suffix_prefix_replaceAllAux {c : Char} {cs r q : List Char}
    (hq : SufIncomp q r) :
    ∀ n s, s.length ≤ n → ∀ v, v <:+ q → v ≠ [] → v ≠ q →
      v <+: replaceAllAux c cs r s → v <+: s := by
  intro n
  induction n with
  | zero =>
    intro s hs v _ hv0 _ hvp
    have hnil : s = [] := List.length_eq_zero.mp (Nat.le_zero.mp hs)
    subst hnil
    rw [replaceAllAux_nil] at hvp
    exact hvp
  | succ n ih =>
    intro s hs v hvq hv0 hvqne hvp
    cases s with
    | nil =>
      rw [replaceAllAux_nil] at hvp
      exact hvp
    | cons a s' =>
      have hs' : s'.length ≤ n := by simp at hs; omega
      by_cases hm : c :: cs <+: a :: s'
      · rw [replaceAllAux_cons_pos r hm] at hvp
        rcases prefix_append_split hvp with h1 | ⟨w, rfl, _⟩
        · exact absurd h1 ((hq v ((List.mem_tails _ _).mpr hvq) hv0 hvqne).1)
        · exact absurd (List.prefix_append r w)
            ((hq _ ((List.mem_tails _ _).mpr hvq) hv0 hvqne).2)
      · rw [replaceAllAux_cons_neg r hm] at hvp
        cases v with
        | nil => exact absurd rfl hv0
        | cons cv v' =>
          rw [List.cons_prefix_cons] at hvp
          obtain ⟨rfl, hv'⟩ := hvp
          by_cases hv'0 : v' = []
          · subst hv'0
            exact List.cons_prefix_cons.mpr ⟨rfl, List.nil_prefix⟩
          · have hv'q : v' <:+ q := (List.suffix_cons cv v').trans hvq
            have hv'ne : v' ≠ q := by
              intro hEq
              have h2 : (cv :: v').length ≤ q.length := hvq.length_le
              have h3 : v'.length = q.length := by rw [hEq]
              simp at h2
              omega
            have hrec := ih s' hs' v' hv'q hv'0 hv'ne hv'
            exact List.cons_prefix_cons.mpr ⟨rfl, hrec⟩

/-- After the scan there is no occurrence of the pattern left, provided the
replacement contains none, no nonempty proper prefix of the pattern is a
suffix of the replacement, and nonempty proper suffixes of the pattern are
prefix-incomparable with the replacement. -/
theorem not_infix_replaceAllAux_self {c : Char} {cs r : List Char}
    (h1 : ¬ (c :: cs) <:+: r)
    (h2 : PreNotSuf (c :: cs) r)
    (h3 : SufIncomp (c :: cs) r) :
    ∀ n s, s.length ≤ n → ¬ (c :: cs) <:+: replaceAllAux c cs r s := by
  intro n
  induction n with
  | zero =>
    intro s hs hocc
    have hnil : s = [] := List.length_eq_zero.mp (Nat.le_zero.mp hs)
    subst hnil
    rw [replaceAllAux_nil] at hocc
    have := hocc.length_le
    simp at this
  | succ n ih =>
    intro s hs hocc
    cases s with
    | nil =>
      rw [replaceAllAux_nil] at hocc
      have := hocc.length_le
      simp at this
    | cons a s' =>
      have hs' : s'.length ≤ n := by simp at hs; omega
      by_cases hm : c :: cs <+: a :: s'
      · rw [replaceAllAux_cons_pos r hm] at hocc
        rcases infix_append_split hocc with hr | hft | ⟨u, v, huv, hu0, hv0, hur, _⟩
        · exact h1 hr
        · exact ih (s'.drop cs.length) (by simp [List.length_drop]; omega) hft
        · refine h2 u ((List.mem_inits _ _).mpr ⟨v, huv.symm⟩) hu0 ?_ hur
          intro hEq
          rw [hEq] at huv
          have hvlen : v.length = 0 := by
            have h := congrArg List.length huv
            simp only [List.length_append] at h
            omega
          exact hv0 (List.length_eq_zero.mp hvlen)
      · rw [replaceAllAux_cons_neg r hm] at hocc
        rcases List.infix_cons_iff.mp hocc with hpre | hinf
        · rw [List.cons_prefix_cons] at hpre
          obtain ⟨rfl, hcs⟩ := hpre
          by_cases hcs0 : cs = []
          · subst hcs0
            exact hm (List.cons_prefix_cons.mpr ⟨rfl, List.nil_prefix⟩)
          · have hcsq : cs <:+ c :: cs := List.suffix_cons c cs
            have hcsne : cs ≠ c :: cs := by
              intro hEq
              have := congrArg List.length hEq
              simp at this
            have := suffix_prefix_replaceAllAux h3 s'.length s' (le_refl _)
              cs hcsq hcs0 hcsne hcs
            exact hm (List.cons_prefix_cons.mpr ⟨rfl, this⟩)
        · exact ih s' hs' hinf

/-- The scan introduces no occurrence of a foreign pattern `q` that was
absent from the input, under the analogous side conditions relating `q`
to the replacement `r`. -/
theorem not_infix_replaceAllAux_preserve {c : Char} {cs r q : List Char}
    (hq0 : q ≠ [])
    (h1 : ¬ q <:+: r)
    (h2 : PreNotSuf q r)
    (h3 : SufIncomp q r) :
    ∀ n s, s.length ≤ n → ¬ q <:+: s → ¬ q <:+: replaceAllAux c cs r s := by
  intro n
  induction n with
  | zero =>
    intro s hs _ hocc
    have hnil : s = [] := List.length_eq_zero.mp (Nat.le_zero.mp hs)
    subst hnil
    rw [replaceAllAux_nil] at hocc
    have hlen := hocc.length_le
    simp only [List.length_nil, Nat.le_zero] at hlen
    exact hq0 (List.length_eq_zero.mp hlen)
  | succ n ih =>
    intro s hs habs hocc
    cases s with
    | nil =>
      rw [replaceAllAux_nil] at hocc
      have hlen := hocc.length_le
      simp only [List.length_nil, Nat.le_zero] at hlen
      exact hq0 (List.length_eq_zero.mp hlen)
    | cons a s' =>
      have hs' : s'.length ≤ n := by simp at hs; omega
      by_cases hm : c :: cs <+: a :: s'
      · rw [replaceAllAux_cons_pos r hm] at hocc
        have habs' : ¬ q <:+: s'.drop cs.length := by
          intro hq
          exact habs (List.infix_cons_iff.mpr (Or.inr (infix_of_infix_drop hq)))
        rcases infix_append_split hocc with hr | hft | ⟨u, v, huv, hu0, hv0, hur, _⟩
        · exact h1 hr
        · exact ih (s'.drop cs.length) (by simp [List.length_drop]; omega) habs' hft
        · refine h2 u ((List.mem_inits _ _).mpr ⟨v, huv.symm⟩) hu0 ?_ hur
          intro hEq
          rw [hEq] at huv
          have hvlen : v.length = 0 := by
            have h := congrArg List.length huv
            simp only [List.length_append] at h
            omega
          exact hv0 (List.length_eq_zero.mp hvlen)
      · rw [replaceAllAux_cons_neg r hm] at hocc
        have habs' : ¬ q <:+: s' := fun hq =>
          habs (List.infix_cons_iff.mpr (Or.inr hq))
        rcases List.infix_cons_iff.mp hocc with hpre | hinf
        · cases q with
          | nil => exact hq0 rfl
          | cons cq q' =>
            rw [List.cons_prefix_cons] at hpre
            obtain ⟨rfl, hq'⟩ := hpre
            by_cases hq'0 : q' = []
            · subst hq'0
              exact habs (List.cons_prefix_cons.mpr
                ⟨rfl, List.nil_prefix⟩).isInfix
            · have hq'q : q' <:+ cq :: q' := List.suffix_cons cq q'
              have hq'ne : q' ≠ cq :: q' := by
                intro hEq
                have := congrArg List.length hEq
                simp at this
              have := suffix_prefix_replaceAllAux h3 s'.length s' (le_refl _)
                q' hq'q hq'0 hq'ne hq'
              exact habs (List.cons_prefix_cons.mpr ⟨rfl, this⟩).isInfix
        · exact ih s' hs' habs' hinf

/-- When the pattern occurs in the input, the replacement occurs in the
output. -/
theorem rep_infix_replaceAllAux {c : Char} {cs r : List Char} :
    ∀ s, (c :: cs) <:+: s → r <:+: replaceAllAux c cs r s := by
  intro s
  induction s with
  | nil =>
    intro h
    have := h.length_le
    simp at this
  | cons a s' ih =>
    intro h
    by_cases hm : c :: cs <+: a :: s'
    · rw [replaceAllAux_cons_pos r hm]
      exact (List.prefix_append r _).isInfix
    · rw [replaceAllAux_cons_neg r hm]
      rcases List.infix_cons_iff.mp h with hpre | hinf
      · exact absurd hpre hm
      · exact List.infix_cons_iff.mpr (Or.inr (ih hinf))

/-- A prefix of the input that is a suffix of a protected string `x` is
still a prefix of the output, when no pattern occurrence can overlap an
occurrence of `x`. -/
theorem prefix_preserved_replaceAllAux {c : Char} {cs r x : List Char}
    (hO2 : ¬ (c :: cs) <:+: x)
    (hO4 : SufNotPre x (c :: cs)) :
    ∀ n s, s.length ≤ n → ∀ y, y <:+ x → y <+: s →
      y <+: replaceAllAux c cs r s := by
  intro n
  induction n with
  | zero =>
    intro s hs y _ hyp
    have hnil : s = [] := List.length_eq_zero.mp (Nat.le_zero.mp hs)
    subst hnil
    rw [replaceAllAux_nil]
    exact hyp
  | succ n ih =>
    intro s hs y hyx hyp
    cases y with
    | nil => exact List.nil_prefix
    | cons b y' =>
      cases s with
      | nil =>
        have := hyp.length_le
        simp at this
      | cons a s' =>
        have hs' : s'.length ≤ n := by simp at hs; omega
        rw [List.cons_prefix_cons] at hyp
        obtain ⟨rfl, hy'⟩ := hyp
        have hm : ¬ c :: cs <+: b :: s' := by
          intro hp
          rcases List.prefix_or_prefix_of_prefix hp
            (List.cons_prefix_cons.mpr ⟨rfl, hy'⟩) with hcp | hpc
          · exact hO2 (hcp.isInfix.trans hyx.isInfix)
          · exact hO4 (b :: y') ((List.mem_tails _ _).mpr hyx) (by simp) hpc
        rw [replaceAllAux_cons_neg r hm]
        refine List.cons_prefix_cons.mpr ⟨rfl, ?_⟩
        exact ih s' hs' y' ((List.suffix_cons b y').trans hyx) hy'

/-- An occurrence of a protected string `x` survives the scan when no
pattern occurrence can overlap an occurrence of `x`. -/
theorem infix_preserved_replaceAllAux {c : Char} {cs r x : List Char}
    (hx : x ≠ [])
    (hO1 : ¬ x <:+: (c :: cs))
    (hO2 : ¬ (c :: cs) <:+: x)
    (hO3 : SufNotPre (c :: cs) x)
    (hO4 : SufNotPre x (c :: cs)) :
    ∀ n s, s.length ≤ n → x <:+: s → x <:+: replaceAllAux c cs r s := by
  intro n
  induction n with
  | zero =>
    intro s hs hxs
    have hnil : s = [] := List.length_eq_zero.mp (Nat.le_zero.mp hs)
    subst hnil
    have := hxs.length_le
    simp only [List.length_nil, Nat.le_zero] at this
    exact absurd (List.length_eq_zero.mp this) hx
  | succ n ih =>
    intro s hs hxs
    cases s with
    | nil =>
      have := hxs.length_le
      simp only [List.length_nil, Nat.le_zero] at this
      exact absurd (List.length_eq_zero.mp this) hx
    | cons a s' =>
      have hs' : s'.length ≤ n := by simp at hs; omega
      obtain ⟨k, hk⟩ := infix_iff_exists_drop.mp hxs
      by_cases hm : c :: cs <+: a :: s'
      · rw [replaceAllAux_cons_pos r hm]
        by_cases hkp : cs.length + 1 ≤ k
        · have hdrop : (a :: s').drop k = (s'.drop cs.length).drop (k - (cs.length + 1)) := by
            rw [List.drop_drop]
            cases k with
            | zero => omega
            | succ k' =>
              rw [List.drop_succ_cons]
              congr 1
              omega
          rw [hdrop] at hk
          refine infix_append_right_ext (ih (s'.drop cs.length) ?_ ?_)
          · simp only [List.length_drop]
            omega
          · exact infix_iff_exists_drop.mpr ⟨_, hk⟩
        · push_neg at hkp
          obtain ⟨t0, ht0⟩ := hm
          have hdrop : (a :: s').drop k = (c :: cs).drop k ++ t0 := by
            rw [← ht0, List.drop_append_eq_append_drop,
              Nat.sub_eq_zero_of_le (by simpa using Nat.le_of_lt hkp),
              List.drop_zero]
          rw [hdrop] at hk
          rcases prefix_append_split hk with h1 | ⟨w, hEq, _⟩
          · exact absurd (h1.isInfix.trans (List.drop_suffix k _).isInfix) hO1
          · exact absurd ⟨w, hEq.symm⟩
              (hO3 ((c :: cs).drop k)
                ((List.mem_tails _ _).mpr (List.drop_suffix k _))
                (drop_nonempty (by simpa using hkp)))
      · rw [replaceAllAux_cons_neg r hm]
        cases k with
        | zero =>
          rw [List.drop_zero] at hk
          cases x with
          | nil => exact absurd rfl hx
          | cons b x' =>
            rw [List.cons_prefix_cons] at hk
            obtain ⟨rfl, hx'⟩ := hk
            have := @prefix_preserved_replaceAllAux c cs r (b :: x') hO2 hO4
              s'.length s' (le_refl _) x' (List.suffix_cons b x') hx'
            exact (List.cons_prefix_cons.mpr ⟨rfl, this⟩).isInfix
        | succ k' =>
          rw [List.drop_succ_cons] at hk
          have : x <:+: s' := infix_iff_exists_drop.mpr ⟨_, hk⟩
          exact List.infix_cons_iff.mpr (Or.inr (ih s' hs' this))

/-- One asymmetric case of the commutation argument: the first rule matches
at the head, and the scans commute below. -/
theorem replaceAllAux_comm_step {c : Char} {cs r : List Char}
    {c' : Char} {cs' r' : List Char}
    (hNO2 : ¬ (c' :: cs') <:+: (c :: cs))
    (hNO3 : SufNotPre (c :: cs) (c' :: cs'))
    (hX1 : ¬ (c' :: cs') <:+: r)
    (hX2 : SufNotPre r (c' :: cs'))
    {a : Char} {s' : List Char}
    (hp : c :: cs <+: a :: s')
    (IH : ∀ u : List Char, u.length ≤ s'.length →
      replaceAllAux c cs r (replaceAllAux c' cs' r' u)
        = replaceAllAux c' cs' r' (replaceAllAux c cs r u)) :
    replaceAllAux c cs r (replaceAllAux c' cs' r' (a :: s'))
      = replaceAllAux c' cs' r' (replaceAllAux c cs r (a :: s')) := by
  obtain ⟨t, ht⟩ := hp
  have hlen : t.length ≤ s'.length := by
    have := congrArg List.length ht
    simp only [List.length_append, List.length_cons] at this
    omega
  have hskipP : replaceAllAux c' cs' r' ((c :: cs) ++ t)
      = (c :: cs) ++ replaceAllAux c' cs' r' t := by
    refine replaceAllAux_skip (c :: cs) t ?_
    intro k hk hcontra
    rcases prefix_append_split hcontra with h1 | ⟨w, hEq, _⟩
    · exact hNO2 (h1.isInfix.trans (List.drop_suffix k _).isInfix)
    · exact hNO3 ((c :: cs).drop k)
        ((List.mem_tails _ _).mpr (List.drop_suffix k _))
        (drop_nonempty hk) ⟨w, hEq.symm⟩
  have hskipR : replaceAllAux c' cs' r' (r ++ replaceAllAux c cs r t)
      = r ++ replaceAllAux c' cs' r' (replaceAllAux c cs r t) := by
    refine replaceAllAux_skip r _ ?_
    intro k hk hcontra
    rcases prefix_append_split hcontra with h1 | ⟨w, hEq, _⟩
    · exact hX1 (h1.isInfix.trans (List.drop_suffix k _).isInfix)
    · exact hX2 (r.drop k)
        ((List.mem_tails _ _).mpr (List.drop_suffix k _))
        (drop_nonempty hk) ⟨w, hEq.symm⟩
  rw [← ht, hskipP, replaceAllAux_append_pat, replaceAllAux_append_pat,
    hskipR, IH t hlen]

/-- The scans of two rules commute when their patterns cannot overlap each
other and neither pattern can overlap either replacement. -/
theorem replaceAllAux_comm {c : Char} {cs r : List Char}
    {c' : Char} {cs' r' : List Char}
    (hNO1 : ¬ (c :: cs) <:+: (c' :: cs'))
    (hNO2 : ¬ (c' :: cs') <:+: (c :: cs))
    (hNO3 : SufNotPre (c :: cs) (c' :: cs'))
    (hNO4 : SufNotPre (c' :: cs') (c :: cs))
    (hX1 : ¬ (c' :: cs') <:+: r)
    (hX2 : SufNotPre r (c' :: cs'))
    (hY1 : ¬ (c :: cs) <:+: r')
    (hY2 : SufNotPre r' (c :: cs))
    (hS1 : SufIncomp (c :: cs) r')
    (hS2 : SufIncomp (c' :: cs') r) :
    ∀ n s, s.length ≤ n →
      replaceAllAux c cs r (replaceAllAux c' cs' r' s)
        = replaceAllAux c' cs' r' (replaceAllAux c cs r s) := by
  intro n
  induction n with
  | zero =>
    intro s hs
    have hnil : s = [] := List.length_eq_zero.mp (Nat.le_zero.mp hs)
    subst hnil
    simp only [replaceAllAux_nil]
  | succ n ih =>
    intro s hs
    cases s with
    | nil =>
      simp only [replaceAllAux_nil]
    | cons a s' =>
      have hs' : s'.length ≤ n := by simp at hs; omega
      by_cases hp : c :: cs <+: a :: s' <;> by_cases hp' : c' :: cs' <+: a :: s'
      · rcases List.prefix_or_prefix_of_prefix hp hp' with h | h
        · exact absurd h.isInfix hNO1
        · exact absurd h.isInfix hNO2
      · exact replaceAllAux_comm_step hNO2 hNO3 hX1 hX2 hp
          (fun u hu => ih u (le_trans hu hs'))
      · exact (replaceAllAux_comm_step hNO1 hNO4 hY1 hY2 hp'
          (fun u hu => (ih u (le_trans hu hs')).symm)).symm
      · have hgs : replaceAllAux c' cs' r' (a :: s')
            = a :: replaceAllAux c' cs' r' s' := replaceAllAux_cons_neg r' hp'
        have hfs : replaceAllAux c cs r (a :: s')
            = a :: replaceAllAux c cs r s' := replaceAllAux_cons_neg r hp
        have hmF : ¬ c :: cs <+: a :: replaceAllAux c' cs' r' s' := by
          intro hcon
          rw [List.cons_prefix_cons] at hcon
          obtain ⟨rfl, hcsg⟩ := hcon
          by_cases hcs0 : cs = []
          · subst hcs0
            exact hp (List.cons_prefix_cons.mpr ⟨rfl, List.nil_prefix⟩)
          · have hne : cs ≠ c :: cs := by
              intro hEq
              have := congrArg List.length hEq
              simp at this
            have := suffix_prefix_replaceAllAux hS1 s'.length s' (le_refl _)
              cs (List.suffix_cons c cs) hcs0 hne hcsg
            exact hp (List.cons_prefix_cons.mpr ⟨rfl, this⟩)
        have hmG : ¬ c' :: cs' <+: a :: replaceAllAux c cs r s' := by
          intro hcon
          rw [List.cons_prefix_cons] at hcon
          obtain ⟨rfl, hcsg⟩ := hcon
          by_cases hcs0 : cs' = []
          · subst hcs0
            exact hp' (List.cons_prefix_cons.mpr ⟨rfl, List.nil_prefix⟩)
          · have hne : cs' ≠ c' :: cs' := by
              intro hEq
              have := congrArg List.length hEq
              simp at this
            have := suffix_prefix_replaceAllAux hS2 s'.length s' (le_refl _)
              cs' (List.suffix_cons c' cs') hcs0 hne hcsg
            exact hp' (List.cons_prefix_cons.mpr ⟨rfl, this⟩)
        rw [hgs, hfs, replaceAllAux_cons_neg r hmF, replaceAllAux_cons_neg r' hmG,
          ih s' hs']

/-! ### From regex tokens to literal strings -/

/-- The unique character an exact token matches: an escaped character, or an
ordinary character other than the wildcard `.`. -/
def tokLit : RTok → Option Char
  | RTok.lit ch => if ch = '.' then none else some ch
  | RTok.esc ch => some ch

/-- The literal string of a fully exact token list. -/
def tokensLit : List RTok → Option (List Char)
  | [] => some []
  | t :: ts =>
    match tokLit t, tokensLit ts with
    | some ch, some l => some (ch :: l)
    | _, _ => none

theorem tokensLit_length : ∀ {ts : List RTok} {l : List Char},
    tokensLit ts = some l → ts.length = l.length := by
  intro ts
  induction ts with
  | nil =>
    intro l h
    simp only [tokensLit, Option.some.injEq] at h
    subst h
    rfl
  | cons t ts ih =>
    intro l h
    simp only [tokensLit] at h
    cases htok : tokLit t with
    | none => rw [htok] at h; simp at h
    | some ch =>
      rw [htok] at h
      cases hts : tokensLit ts with
      | none => rw [hts] at h; simp at h
      | some l' =>
        rw [hts] at h
        simp only [Option.some.injEq] at h
        subst h
        simp [ih hts]

theorem tokLit_matches1 {t : RTok} {ch : Char} (h : tokLit t = some ch) :
    ∀ a, t.matches1 a = true ↔ a = ch := by
  intro a
  cases t with
  | lit c =>
    simp only [tokLit] at h
    by_cases hc : c = '.'
    · rw [if_pos hc] at h; simp at h
    · rw [if_neg hc] at h
      simp only [Option.some.injEq] at h
      subst h
      simp [RTok.matches1, if_neg hc]
  | esc c =>
    simp only [tokLit, Option.some.injEq] at h
    subst h
    simp [RTok.matches1]

theorem tokensMatch_iff_eq : ∀ {ts : List RTok} {l : List Char},
    tokensLit ts = some l → ∀ s, tokensMatch ts s = true ↔ s = l := by
  intro ts
  induction ts with
  | nil =>
    intro l h s
    simp only [tokensLit, Option.some.injEq] at h
    subst h
    cases s with
    | nil => simp [tokensMatch]
    | cons a s => simp [tokensMatch]
  | cons t ts ih =>
    intro l h s
    simp only [tokensLit] at h
    cases htok : tokLit t with
    | none => rw [htok] at h; simp at h
    | some ch =>
      rw [htok] at h
      cases hts : tokensLit ts with
      | none => rw [hts] at h; simp at h
      | some l' =>
        rw [hts] at h
        simp only [Option.some.injEq] at h
        subst h
        cases s with
        | nil => simp [tokensMatch]
        | cons a s =>
          simp only [tokensMatch, Bool.and_eq_true, tokLit_matches1 htok,
            ih hts, List.cons.injEq]

/-- The `re.sub` scan of an exact pattern coincides with the literal scan of
its literal string. -/
theorem rsubAux_eq_replaceAllAux {t : RTok} {ts : List RTok} {ch : Char}
    {l : List Char} (h : tokensLit (t :: ts) = some (ch :: l)) (repl : List Char) :
    ∀ n s, s.length ≤ n → rsubAux t ts repl s = replaceAllAux ch l repl s := by
  have hlen : ts.length = l.length := by
    have := tokensLit_length h
    simpa using this
  intro n
  induction n with
  | zero =>
    intro s hs
    have hnil : s = [] := List.length_eq_zero.mp (Nat.le_zero.mp hs)
    subst hnil
    rw [rsubAux_nil, replaceAllAux_nil]
  | succ n ih =>
    intro s hs
    cases s with
    | nil => rw [rsubAux_nil, replaceAllAux_nil]
    | cons a s' =>
      have hs' : s'.length ≤ n := by simp at hs; omega
      have hguard : tokensMatch (t :: ts) ((a :: s').take (ts.length + 1)) = true
          ↔ ch :: l <+: a :: s' := by
        rw [tokensMatch_iff_eq h]
        have hlen2 : (ch :: l).length = ts.length + 1 := by simp [hlen]
        constructor
        · intro hEq
          rw [List.prefix_iff_eq_take, hlen2, hEq]
        · intro hpre
          have h2 := List.prefix_iff_eq_take.mp hpre
          rw [← hlen2, ← h2]
      by_cases hm : ch :: l <+: a :: s'
      · rw [rsubAux_cons_pos repl (hguard.mpr hm), replaceAllAux_cons_pos repl hm,
          hlen, ih _ (by simp only [List.length_drop]; omega)]
      · rw [rsubAux_cons_neg repl (fun hg => hm (hguard.mp hg)),
          replaceAllAux_cons_neg repl hm, ih s' hs']

/-- On an exact pattern, `rsub` is plain literal replace-all. -/
theorem rsub_eq_replaceAll {pat : List RTok} {l : List Char}
    (h : tokensLit pat = some l) (repl s : List Char) :
    rsub pat repl s = replaceAll l repl s := by
  cases pat with
  | nil =>
    simp only [tokensLit, Option.some.injEq] at h
    subst h
    rfl
  | cons t ts =>
    cases l with
    | nil =>
      have := tokensLit_length h
      simp at this
    | cons ch l' =>
      exact rsubAux_eq_replaceAllAux h repl s.length s (le_refl _)

/-! ### The same lemmas at the `replaceAll` level -/

theorem replaceAll_eq_self {pat r : List Char} (h0 : pat ≠ []) {s : List Char}
    (h : ¬ pat <:+: s) : replaceAll pat r s = s := by
  cases pat with
  | nil => exact absurd rfl h0
  | cons c cs => exact replaceAllAux_eq_self s h

theorem replaceAll_append_pat {pat : List Char} (r x : List Char) (h0 : pat ≠ []) :
    replaceAll pat r (pat ++ x) = r ++ replaceAll pat r x := by
  cases pat with
  | nil => exact absurd rfl h0
  | cons c cs => exact replaceAllAux_append_pat c cs r x

theorem replaceAll_skip {pat r : List Char} (w x : List Char)
    (h : ∀ k, k < w.length → ¬ pat <+: (w.drop k ++ x)) :
    replaceAll pat r (w ++ x) = w ++ replaceAll pat r x := by
  cases pat with
  | nil => rfl
  | cons c cs => exact replaceAllAux_skip w x h

theorem not_infix_replaceAll_self {pat r : List Char} (h0 : pat ≠ [])
    (h1 : ¬ pat <:+: r) (h2 : PreNotSuf pat r) (h3 : SufIncomp pat r)
    (s : List Char) : ¬ pat <:+: replaceAll pat r s := by
  cases pat with
  | nil => exact absurd rfl h0
  | cons c cs =>
    exact not_infix_replaceAllAux_self h1 h2 h3 s.length s (le_refl _)

theorem not_infix_replaceAll_preserve {pat r q : List Char} (hq0 : q ≠ [])
    (h1 : ¬ q <:+: r) (h2 : PreNotSuf q r) (h3 : SufIncomp q r)
    {s : List Char} (habs : ¬ q <:+: s) : ¬ q <:+: replaceAll pat r s := by
  cases pat with
  | nil => exact habs
  | cons c cs =>
    exact not_infix_replaceAllAux_preserve hq0 h1 h2 h3 s.length s (le_refl _) habs

theorem rep_infix_replaceAll {pat r : List Char} (h0 : pat ≠ [])
    {s : List Char} (hocc : pat <:+: s) : r <:+: replaceAll pat r s := by
  cases pat with
  | nil => exact absurd rfl h0
  | cons c cs => exact rep_infix_replaceAllAux s hocc

theorem infix_preserved_replaceAll {pat r x : List Char} (hx : x ≠ [])
    (hO1 : ¬ x <:+: pat) (hO2 : ¬ pat <:+: x) (hO3 : SufNotPre pat x)
    (hO4 : SufNotPre x pat) {s : List Char} (h : x <:+: s) :
    x <:+: replaceAll pat r s := by
  cases pat with
  | nil => exact h
  | cons c cs =>
    exact infix_preserved_replaceAllAux hx hO1 hO2 hO3 hO4 s.length s (le_refl _) h

theorem replaceAll_comm {p r p' r' : List Char} (hp0 : p ≠ []) (hp'0 : p' ≠ [])
    (hNO1 : ¬ p <:+: p') (hNO2 : ¬ p' <:+: p)
    (hNO3 : SufNotPre p p') (hNO4 : SufNotPre p' p)
    (hX1 : ¬ p' <:+: r) (hX2 : SufNotPre r p')
    (hY1 : ¬ p <:+: r') (hY2 : SufNotPre r' p)
    (hS1 : SufIncomp p r') (hS2 : SufIncomp p' r) (s : List Char) :
    replaceAll p r (replaceAll p' r' s) = replaceAll p' r' (replaceAll p r s) := by
  cases p with
  | nil => exact absurd rfl hp0
  | cons c cs =>
    cases p' with
    | nil => exact absurd rfl hp'0
    | cons c' cs' =>
      exact replaceAllAux_comm hNO1 hNO2 hNO3 hNO4 hX1 hX2 hY1 hY2 hS1 hS2
        s.length s (le_refl _)

/-! ### The concrete rules as literal scans -/

theorem rsub_pat1 (s : List Char) :
    rsub (tokenize pat1raw) rep1 s = replaceAll lit1 rep1 s :=
  rsub_eq_replaceAll (by decide) rep1 s

theorem rsub_pat2 (s : List Char) :
    rsub (tokenize pat2raw) rep2 s = replaceAll lit2 rep2 s :=
  rsub_eq_replaceAll (by decide) rep2 s

theorem rsub_pat3 (s : List Char) :
    rsub (tokenize pat3raw) rep3 s = replaceAll lit3 rep3 s :=
  rsub_eq_replaceAll (by decide) rep3 s

theorem apply_rules_eq_lit (s : List Char) : apply_rules s = apply_rules_literal s := by
  show rsub (tokenize pat3raw) rep3
      (rsub (tokenize pat2raw) rep2 (rsub (tokenize pat1raw) rep1 s))
    = apply_rules_literal s
  rw [rsub_pat1, rsub_pat2, rsub_pat3]
  rfl

theorem fixNsSub_eq_apply_rules (s : List Char) : fixNsSub s = apply_rules s := rfl

/-! ### No pattern survives a full pass -/

theorem no_lit1_after (t : List Char) : ¬ lit1 <:+: apply_rules_literal t := by
  have e1 : ¬ lit1 <:+: replaceAll lit1 rep1 t :=
    not_infix_replaceAll_self (by decide) (by decide) (by decide) (by decide) t
  have e2 : ¬ lit1 <:+: replaceAll lit2 rep2 (replaceAll lit1 rep1 t) :=
    not_infix_replaceAll_preserve (by decide) (by decide) (by decide) (by decide) e1
  exact not_infix_replaceAll_preserve (by decide) (by decide) (by decide) (by decide) e2

theorem no_lit2_after (t : List Char) : ¬ lit2 <:+: apply_rules_literal t := by
  have e2 : ¬ lit2 <:+: replaceAll lit2 rep2 (replaceAll lit1 rep1 t) :=
    not_infix_replaceAll_self (by decide) (by decide) (by decide) (by decide) _
  exact not_infix_replaceAll_preserve (by decide) (by decide) (by decide) (by decide) e2

theorem no_lit3_after (t : List Char) : ¬ lit3 <:+: apply_rules_literal t :=
  not_infix_replaceAll_self (by decide) (by decide) (by decide) (by decide) _

theorem apply_rules_literal_idem (t : List Char) :
    apply_rules_literal (apply_rules_literal t) = apply_rules_literal t := by
  have h1 := no_lit1_after t
  have h2 := no_lit2_after t
  have h3 := no_lit3_after t
  show replaceAll lit3 rep3 (replaceAll lit2 rep2
      (replaceAll lit1 rep1 (apply_rules_literal t))) = apply_rules_literal t
  rw [replaceAll_eq_self (by decide) h1, replaceAll_eq_self (by decide) h2,
    replaceAll_eq_self (by decide) h3]

/-! ### Characterising the run loops -/

theorem fix_file_fst (p : String) (i : Except FileErr (List Char)) :
    (fix_file p i).1 = fileChanged (p, i) := by
  cases i with
  | error e => rfl
  | ok c =>
    simp only [fix_file, fileChanged]
    by_cases h : fixNsSub c = c
    · rw [if_neg (by simp [h])]
      simp [h]
    · rw [if_pos (by simp [h])]
      simp [h]

theorem foldl_fixNsStep (files : List (String × Except FileErr (List Char))) :
    ∀ acc : RunResult,
      (files.foldl fixNsStep acc).fixedCount
          = acc.fixedCount + (files.filter fileChanged).length
      ∧ (files.foldl fixNsStep acc).stderr
          = acc.stderr ++ files.flatMap (fun f => (fix_file f.1 f.2).2.2)
      ∧ (files.foldl fixNsStep acc).writes
          = acc.writes ++ files.flatMap (fun f =>
              match (fix_file f.1 f.2).2.1 with
              | some c => [(f.1, c)]
              | none => [])
      ∧ (files.foldl fixNsStep acc).stdout = acc.stdout
      ∧ (files.foldl fixNsStep acc).exitCode = acc.exitCode := by
  induction files with
  | nil => intro acc; simp
  | cons f fs ih =>
    intro acc
    obtain ⟨h1, h2, h3, h4, h5⟩ := ih (fixNsStep acc f)
    simp only [List.foldl_cons, List.filter_cons, List.flatMap_cons]
    refine ⟨?_, ?_, ?_, ?_, ?_⟩
    · rw [h1]
      simp only [fixNsStep, fix_file_fst]
      by_cases hc : fileChanged (f.1, f.2)
      · simp only [hc]
        rw [if_pos (by simp [hc])]
        simp
        omega
      · simp only [hc]
        rw [if_neg (by simp [hc])]
        simp [hc]
    · rw [h2]
      simp [fixNsStep]
    · rw [h3]
      simp [fixNsStep]
    · rw [h4]
      simp [fixNsStep]
    · rw [h5]
      simp [fixNsStep]

theorem runFixNsFiles_spec (files : List (String × Except FileErr (List Char))) :
    (runFixNsFiles files).fixedCount = (files.filter fileChanged).length
    ∧ (runFixNsFiles files).stdout
        = [OutLine.fixedCount ((files.filter fileChanged).length)]
    ∧ (runFixNsFiles files).stderr
        = files.flatMap (fun f => (fix_file f.1 f.2).2.2)
    ∧ (runFixNsFiles files).writes
        = files.flatMap (fun f =>
            match (fix_file f.1 f.2).2.1 with
            | some c => [(f.1, c)]
            | none => [])
    ∧ (runFixNsFiles files).exitCode = 0 := by
  obtain ⟨h1, h2, h3, _, h5⟩ := foldl_fixNsStep files
    { fixedCount := 0, stdout := [], stderr := [], writes := [], exitCode := 0 }
  simp only [runFixNsFiles]
  refine ⟨?_, ?_, ?_, ?_, ?_⟩
  · simpa using h1
  · rw [show (files.foldl fixNsStep
      { fixedCount := 0, stdout := [], stderr := [], writes := [], exitCode := 0 }).fixedCount
        = (files.filter fileChanged).length by simpa using h1]
  · simpa using h2
  · simpa using h3
  · simpa using h5

/-- The lines the per-file body of `fix-namespaces.py` prints. -/
theorem processFile_snd (p : String) (i : Except FileErr (List Char)) :
    (processFile p i).2 = match i with
      | .error e => [OutLine.errorLine p e]
      | .ok _ => if fileChanged (p, i) then [OutLine.fixedFile p] else [] := by
  cases i with
  | error e => rfl
  | ok c =>
    simp only [processFile, fileChanged, ← fixNsSub_eq_apply_rules]
    by_cases h : fixNsSub c = c
    · rw [if_neg (by simp [h]), if_neg (by simp [h])]
    · rw [if_pos (by simp [h]), if_pos (by simp [h])]

theorem runFixNamespaces_stdout (files : List (String × Except FileErr (List Char)))
    (hok : ∀ f ∈ files, ∀ e : FileErr, f.2 ≠ Except.error e) :
    (runFixNamespaces files).stdout
      = OutLine.found files.length ::
          ((files.filter fileChanged).map (fun f => OutLine.fixedFile f.1)
            ++ [OutLine.done]) := by
  simp only [runFixNamespaces]
  have : ∀ fs : List (String × Except FileErr (List Char)),
      (∀ f ∈ fs, ∀ e : FileErr, f.2 ≠ Except.error e) →
      (fs.flatMap fun f => (processFile f.1 f.2).2)
        = (fs.filter fileChanged).map (fun f => OutLine.fixedFile f.1) := by
    intro fs
    induction fs with
    | nil => intro _; rfl
    | cons f fs ih =>
      intro hall
      rw [List.flatMap_cons, List.filter_cons,
        ih (fun g hg e => hall g (List.mem_cons_of_mem f hg) e)]
      obtain ⟨p, i⟩ := f
      rw [processFile_snd]
      cases i with
      | error e =>
        exact absurd rfl (hall (p, Except.error e) (List.mem_cons_self _ _) e)
      | ok c =>
        by_cases hc : fileChanged (p, Except.ok c)
        · rw [if_pos hc]
          simp [hc]
        · rw [if_neg hc]
          simp [hc]
  rw [this files hok]
  exact List.cons_append _ _ _

/-! ### Concrete evaluations through the lemma layer -/

theorem replaceAll_whole {pat : List Char} (r : List Char) (h0 : pat ≠ []) :
    replaceAll pat r pat = r := by
  have h := @replaceAll_append_pat pat r [] h0
  rw [List.append_nil] at h
  rw [h]
  cases pat with
  | nil => exact absurd rfl h0
  | cons c cs =>
    show r ++ replaceAllAux c cs r [] = r
    rw [replaceAllAux_nil, List.append_nil]

theorem fixNsSub_lit1 : fixNsSub lit1 = rep1 := by
  rw [fixNsSub_eq_apply_rules, apply_rules_eq_lit]
  show replaceAll lit3 rep3 (replaceAll lit2 rep2 (replaceAll lit1 rep1 lit1)) = rep1
  rw [replaceAll_whole rep1 (by decide),
    replaceAll_eq_self (by decide) (by decide : ¬ lit2 <:+: rep1),
    replaceAll_eq_self (by decide) (by decide : ¬ lit3 <:+: rep1)]

theorem fix_file_lit1 (p : String) :
    fix_file p (Except.ok lit1) = (true, some rep1, []) := by
  simp only [fix_file, fixNsSub_lit1]
  rw [if_pos (by decide : rep1 ≠ lit1)]

theorem fixNsSub_noop {c : List Char} (h1 : ¬ lit1 <:+: c) (h2 : ¬ lit2 <:+: c)
    (h3 : ¬ lit3 <:+: c) : fixNsSub c = c := by
  rw [fixNsSub_eq_apply_rules, apply_rules_eq_lit]
  show replaceAll lit3 rep3 (replaceAll lit2 rep2 (replaceAll lit1 rep1 c)) = c
  rw [replaceAll_eq_self (by decide) h1, replaceAll_eq_self (by decide) h2,
    replaceAll_eq_self (by decide) h3]

/-! ### Commutation of the concrete rules -/

theorem comm_rule12 (s : List Char) :
    replaceAll lit1 rep1 (replaceAll lit2 rep2 s)
      = replaceAll lit2 rep2 (replaceAll lit1 rep1 s) :=
  replaceAll_comm (by decide) (by decide) (by decide) (by decide) (by decide)
    (by decide) (by decide) (by decide) (by decide) (by decide) (by decide)
    (by decide) s

theorem comm_rule13 (s : List Char) :
    replaceAll lit1 rep1 (replaceAll lit3 rep3 s)
      = replaceAll lit3 rep3 (replaceAll lit1 rep1 s) :=
  replaceAll_comm (by decide) (by decide) (by decide) (by decide) (by decide)
    (by decide) (by decide) (by decide) (by decide) (by decide) (by decide)
    (by decide) s

theorem comm_rule23 (s : List Char) :
    replaceAll lit2 rep2 (replaceAll lit3 rep3 s)
      = replaceAll lit3 rep3 (replaceAll lit2 rep2 s) :=
  replaceAll_comm (by decide) (by decide) (by decide) (by decide) (by decide)
    (by decide) (by decide) (by decide) (by decide) (by decide) (by decide)
    (by decide) s

/-- The replacement loop of `fix-namespaces.py` run over an arbitrary rule
list, used to state order-independence. -/
def applyRulesList (rules : List (List RTok × List Char)) (content : List Char) :
    List Char :=
  rules.foldl (fun acc pr => rsub pr.1 pr.2 acc) content

/-! ### Claim theorems -/

/-- C1: `apply_rules` is the left fold of the global-replace step over the
rule list in source order, which is the nested composition in which later
rules operate on the output of earlier rules; the transformation inside
`fix_file` of `fix-ns.py` is the same function; and each step has
replace-all semantics over the entire buffer: a match is rewritten and the
scan resumes after it (so all non-overlapping matches are rewritten), while
text without a match of the step's pattern is returned unchanged. -/
theorem C1_apply_rules_is_fold :
    (∀ t, apply_rules t
        = List.foldl (fun acc pr => rsub pr.1 pr.2 acc) t replacements)
    ∧ (∀ t, apply_rules t
        = rsub (tokenize pat3raw) rep3 (rsub (tokenize pat2raw) rep2
            (rsub (tokenize pat1raw) rep1 t)))
    ∧ (∀ t, fixNsSub t = apply_rules t)
    ∧ (∀ x, rsub (tokenize pat1raw) rep1 (lit1 ++ x)
        = rep1 ++ rsub (tokenize pat1raw) rep1 x)
    ∧ (∀ x, rsub (tokenize pat2raw) rep2 (lit2 ++ x)
        = rep2 ++ rsub (tokenize pat2raw) rep2 x)
    ∧ (∀ x, rsub (tokenize pat3raw) rep3 (lit3 ++ x)
        = rep3 ++ rsub (tokenize pat3raw) rep3 x)
    ∧ (∀ x, ¬ lit1 <:+: x → rsub (tokenize pat1raw) rep1 x = x)
    ∧ (∀ x, ¬ lit2 <:+: x → rsub (tokenize pat2raw) rep2 x = x)
    ∧ (∀ x, ¬ lit3 <:+: x → rsub (tokenize pat3raw) rep3 x = x) := by
  refine ⟨fun t => rfl, fun t => rfl, fun t => rfl, ?_, ?_, ?_, ?_, ?_, ?_⟩
  · intro x
    rw [rsub_pat1, rsub_pat1, replaceAll_append_pat rep1 x (by decide)]
  · intro x
    rw [rsub_pat2, rsub_pat2, replaceAll_append_pat rep2 x (by decide)]
  · intro x
    rw [rsub_pat3, rsub_pat3, replaceAll_append_pat rep3 x (by decide)]
  · intro x h
    rw [rsub_pat1, replaceAll_eq_self (by decide) h]
  · intro x h
    rw [rsub_pat2, replaceAll_eq_self (by decide) h]
  · intro x h
    rw [rsub_pat3, replaceAll_eq_self (by decide) h]

theorem C1_apply_rules_is_fold_witness :
    (¬ lit1 <:+: "class A;".data)
    ∧ rsub (tokenize pat1raw) rep1 "class A;".data = "class A;".data :=
  ⟨by decide, C1_apply_rules_is_fold.2.2.2.2.2.2.1 "class A;".data (by decide)⟩

/-- C2: on every text, applying the fixed rule set twice gives the same
result as applying it once. -/
theorem C2_apply_rules_idempotent (t : List Char) :
    apply_rules (apply_rules t) = apply_rules t := by
  rw [apply_rules_eq_lit (apply_rules t), apply_rules_eq_lit t,
    apply_rules_literal_idem]

/-- C9: every compiled pattern consists solely of exact one-character
tokens (all metacharacters are escaped), so each pattern matches exactly
its literal string, and `apply_rules` coincides with the three sequential
plain replace-all substitutions of those literal strings. -/
theorem C9_patterns_are_literal :
    (∀ s, tokensMatch (tokenize pat1raw) s = true ↔ s = lit1)
    ∧ (∀ s, tokensMatch (tokenize pat2raw) s = true ↔ s = lit2)
    ∧ (∀ s, tokensMatch (tokenize pat3raw) s = true ↔ s = lit3)
    ∧ (∀ t, apply_rules t = apply_rules_literal t) :=
  ⟨fun s => tokensMatch_iff_eq (by decide) s,
   fun s => tokensMatch_iff_eq (by decide) s,
   fun s => tokensMatch_iff_eq (by decide) s,
   apply_rules_eq_lit⟩

theorem C9_patterns_are_literal_witness :
    tokensMatch (tokenize pat1raw) lit1 = true :=
  (C9_patterns_are_literal.1 lit1).mpr rfl

/-- C3: on a file whose content contains no match of any rule pattern,
`fix_file` of `fix-ns.py` returns `False`, writes nothing and prints
nothing, and the per-file body of `fix-namespaces.py` likewise performs no
write and prints no line: the on-disk content stays byte-identical. -/
theorem C3_noop_detection (p : String) (c : List Char)
    (h1 : ¬ lit1 <:+: c) (h2 : ¬ lit2 <:+: c) (h3 : ¬ lit3 <:+: c) :
    fix_file p (Except.ok c) = (false, none, [])
      ∧ processFile p (Except.ok c) = (none, []) := by
  have hid : fixNsSub c = c := fixNsSub_noop h1 h2 h3
  have hid2 : apply_rules c = c := by
    rw [← fixNsSub_eq_apply_rules, hid]
  constructor
  · simp only [fix_file, hid]
    rw [if_neg (by simp)]
  · simp only [processFile, hid2]
    rw [if_neg (by simp)]

theorem C3_noop_detection_witness :
    fix_file "A.cs" (Except.ok "class A;".data) = (false, none, [])
      ∧ processFile "A.cs" (Except.ok "class A;".data) = (none, []) :=
  C3_noop_detection "A.cs" "class A;".data (by decide) (by decide) (by decide)

/-- C4: on a file whose content contains the line
`using Core.Libraries.Application.Commands;`, the run rewrites it: the
replacement line `using Core.LibrariesApplication.Commands;` occurs in the
transformed text, the original line no longer occurs anywhere, and
`fix_file` returns `True`, so the file is counted as changed. -/
theorem C4_commands_line (p : String) (c : List Char) (h : lit1 <:+: c) :
    rep1 <:+: apply_rules c
    ∧ ¬ lit1 <:+: apply_rules c
    ∧ (fix_file p (Except.ok c)).1 = true := by
  have hr1 : rep1 <:+: replaceAll lit1 rep1 c :=
    rep_infix_replaceAll (by decide) h
  have hr2 : rep1 <:+: replaceAll lit2 rep2 (replaceAll lit1 rep1 c) :=
    infix_preserved_replaceAll (by decide) (by decide) (by decide) (by decide)
      (by decide) hr1
  have hr3 : rep1 <:+: apply_rules_literal c :=
    infix_preserved_replaceAll (by decide) (by decide) (by decide) (by decide)
      (by decide) hr2
  have hno : ¬ lit1 <:+: apply_rules_literal c := no_lit1_after c
  have hchanged : fixNsSub c ≠ c := by
    rw [fixNsSub_eq_apply_rules, apply_rules_eq_lit]
    intro hEq
    rw [hEq] at hno
    exact hno h
  refine ⟨?_, ?_, ?_⟩
  · rw [apply_rules_eq_lit]
    exact hr3
  · rw [apply_rules_eq_lit]
    exact hno
  · simp only [fix_file]
    rw [if_pos hchanged]

theorem C4_commands_line_witness :
    rep1 <:+: apply_rules ("// header\n".data ++ lit1 ++ "\n".data)
    ∧ ¬ lit1 <:+: apply_rules ("// header\n".data ++ lit1 ++ "\n".data)
    ∧ (fix_file "A.cs" (Except.ok ("// header\n".data ++ lit1 ++ "\n".data))).1
        = true :=
  C4_commands_line "A.cs" ("// header\n".data ++ lit1 ++ "\n".data)
    ((List.infix_append _ _ _))

/-- C5: on a file that contains `using Techleap.Core.Domain.Exceptions;`
and nothing else matching any rule (no match of rules 1 and 2 anywhere, no
match of rule 3 starting before the shown occurrence or inside the tail),
the run rewrites exactly that text to
`using Core.Libraries.Domain.Exceptions;`. -/
theorem C5_techleap_line (a b : List Char)
    (h1 : ¬ lit1 <:+: a ++ lit3 ++ b) (h2 : ¬ lit2 <:+: a ++ lit3 ++ b)
    (ha : ∀ k, k < a.length → ¬ lit3 <+: ((a ++ lit3 ++ b).drop k))
    (hb : ¬ lit3 <:+: b) :
    apply_rules (a ++ lit3 ++ b) = a ++ rep3 ++ b := by
  rw [apply_rules_eq_lit]
  show replaceAll lit3 rep3 (replaceAll lit2 rep2
      (replaceAll lit1 rep1 (a ++ lit3 ++ b))) = a ++ rep3 ++ b
  rw [replaceAll_eq_self (by decide) h1, replaceAll_eq_self (by decide) h2,
    List.append_assoc]
  rw [replaceAll_skip a (lit3 ++ b) ?hskip]
  case hskip =>
    intro k hk
    have hdrop : (a ++ (lit3 ++ b)).drop k = a.drop k ++ (lit3 ++ b) := by
      rw [List.drop_append_eq_append_drop, Nat.sub_eq_zero_of_le (le_of_lt hk),
        List.drop_zero]
    have := ha k hk
    rw [List.append_assoc, hdrop] at this
    exact this
  rw [replaceAll_append_pat rep3 b (by decide),
    replaceAll_eq_self (by decide) hb, List.append_assoc]

theorem C5_techleap_line_witness :
    apply_rules ("// x\n".data ++ lit3 ++ "\n".data)
      = "// x\n".data ++ rep3 ++ "\n".data :=
  C5_techleap_line "// x\n".data "\n".data (by decide) (by decide)
    (by decide) (by decide)

/-- C10: the three patterns are pairwise disjoint literals (none occurs
inside another, and no nonempty suffix of one is a prefix of another), no
rule's replacement text contains a match of any rule's pattern, and
consequently running the replacement loop over the rules in any of the six
orders produces the same text as the programmed order. -/
theorem C10_order_independence :
    ((¬ lit1 <:+: lit2) ∧ (¬ lit2 <:+: lit1) ∧ (¬ lit1 <:+: lit3)
      ∧ (¬ lit3 <:+: lit1) ∧ (¬ lit2 <:+: lit3) ∧ (¬ lit3 <:+: lit2)
      ∧ SufNotPre lit1 lit2 ∧ SufNotPre lit2 lit1 ∧ SufNotPre lit1 lit3
      ∧ SufNotPre lit3 lit1 ∧ SufNotPre lit2 lit3 ∧ SufNotPre lit3 lit2)
    ∧ ((¬ lit1 <:+: rep1) ∧ (¬ lit1 <:+: rep2) ∧ (¬ lit1 <:+: rep3)
      ∧ (¬ lit2 <:+: rep1) ∧ (¬ lit2 <:+: rep2) ∧ (¬ lit2 <:+: rep3)
      ∧ (¬ lit3 <:+: rep1) ∧ (¬ lit3 <:+: rep2) ∧ (¬ lit3 <:+: rep3))
    ∧ (∀ t, applyRulesList [(tokenize pat1raw, rep1), (tokenize pat3raw, rep3),
        (tokenize pat2raw, rep2)] t = apply_rules t)
    ∧ (∀ t, applyRulesList [(tokenize pat2raw, rep2), (tokenize pat1raw, rep1),
        (tokenize pat3raw, rep3)] t = apply_rules t)
    ∧ (∀ t, applyRulesList [(tokenize pat2raw, rep2), (tokenize pat3raw, rep3),
        (tokenize pat1raw, rep1)] t = apply_rules t)
    ∧ (∀ t, applyRulesList [(tokenize pat3raw, rep3), (tokenize pat1raw, rep1),
        (tokenize pat2raw, rep2)] t = apply_rules t)
    ∧ (∀ t, applyRulesList [(tokenize pat3raw, rep3), (tokenize pat2raw, rep2),
        (tokenize pat1raw, rep1)] t = apply_rules t) := by
  refine ⟨by decide, by decide, ?_, ?_, ?_, ?_, ?_⟩
  · intro t
    show rsub (tokenize pat2raw) rep2 (rsub (tokenize pat3raw) rep3
        (rsub (tokenize pat1raw) rep1 t)) = apply_rules t
    rw [apply_rules_eq_lit, rsub_pat1, rsub_pat3, rsub_pat2, comm_rule23]
    rfl
  · intro t
    show rsub (tokenize pat3raw) rep3 (rsub (tokenize pat1raw) rep1
        (rsub (tokenize pat2raw) rep2 t)) = apply_rules t
    rw [apply_rules_eq_lit, rsub_pat2, rsub_pat1, rsub_pat3, comm_rule12]
    rfl
  · intro t
    show rsub (tokenize pat1raw) rep1 (rsub (tokenize pat3raw) rep3
        (rsub (tokenize pat2raw) rep2 t)) = apply_rules t
    rw [apply_rules_eq_lit, rsub_pat2, rsub_pat3, rsub_pat1,
      comm_rule13, comm_rule12]
    rfl
  · intro t
    show rsub (tokenize pat2raw) rep2 (rsub (tokenize pat1raw) rep1
        (rsub (tokenize pat3raw) rep3 t)) = apply_rules t
    rw [apply_rules_eq_lit, rsub_pat3, rsub_pat1, rsub_pat2,
      comm_rule13, comm_rule23]
    rfl
  · intro t
    show rsub (tokenize pat1raw) rep1 (rsub (tokenize pat2raw) rep2
        (rsub (tokenize pat3raw) rep3 t)) = apply_rules t
    rw [apply_rules_eq_lit, rsub_pat3, rsub_pat2, rsub_pat1,
      comm_rule23, comm_rule13, comm_rule12]
    rfl

/-- C7 counterexample: with the discovery root missing, `fix-ns.py` does
not raise a fatal error: `os.walk` swallows the failure, the loop body
never runs, the script prints `Fixed 0 files` and exits with status 0 —
not the claimed non-zero status. -/
theorem C7_traversal_cex :
    (runFixNs (Except.error TravErr.rootMissing)).exitCode = 0
    ∧ (runFixNs (Except.error TravErr.rootMissing)).stdout
        = [OutLine.fixedCount 0] :=
  ⟨rfl, rfl⟩

/-- C7 (amended): with the root missing or inaccessible the traversal
yields no entries, so no file is read or written and no error is printed,
and the run completes normally, reporting `Fixed 0 files` and exiting with
status 0. -/
theorem C7_traversal_amended :
    runFixNs (Except.error TravErr.rootMissing)
      = { fixedCount := 0, stdout := [OutLine.fixedCount 0], stderr := [],
          writes := [], exitCode := 0 }
    ∧ runFixNs (Except.error TravErr.rootInaccessible)
      = { fixedCount := 0, stdout := [OutLine.fixedCount 0], stderr := [],
          writes := [], exitCode := 0 } :=
  ⟨rfl, rfl⟩

/-- The single-match content changes the file. -/
theorem fileChanged_ok_lit1 (p : String) :
    fileChanged (p, Except.ok lit1) = true := by
  simp only [fileChanged]
  rw [fixNsSub_lit1]
  decide

/-- C8 counterexample: on a run of `fix-ns.py` over one file whose content
is changed, the claimed transcript shape — a preamble line, one progress
line per changed file and a trailing summary, three lines here — fails:
stdout is the single summary line. -/
theorem C8_transcript_cex :
    (runFixNsFiles [("a.cs", Except.ok lit1)]).stdout.length = 1
    ∧ ([("a.cs", Except.ok lit1)].filter fileChanged).length = 1
    ∧ ¬ ((runFixNsFiles [("a.cs", Except.ok lit1)]).stdout.length
        = 1 + ([("a.cs", Except.ok lit1)].filter fileChanged).length + 1) := by
  have hch := fileChanged_ok_lit1 "a.cs"
  refine ⟨rfl, by simp [hch], ?_⟩
  intro hEq
  have h1 : (runFixNsFiles [("a.cs", Except.ok lit1)]).stdout.length = 1 := rfl
  have h2 : ([("a.cs", Except.ok lit1)].filter fileChanged).length = 1 := by
    simp [hch]
  rw [h1, h2] at hEq
  omega

/-- C8 (amended): the two scripts' transcripts differ from the claimed
shape.  On an error-free run, `fix-namespaces.py` prints a preamble with
the discovered count, one `Fixed:` line per changed file, and a trailing
`Done!` carrying no count; `fix-ns.py` prints exactly one line, the
trailing summary `Fixed {n} files` with the modified count — no preamble
and no per-file progress lines. -/
theorem C8_transcript_amended (files : List (String × Except FileErr (List Char)))
    (hok : ∀ f ∈ files, ∀ e : FileErr, f.2 ≠ Except.error e) :
    (runFixNamespaces files).stdout
      = OutLine.found files.length ::
          ((files.filter fileChanged).map (fun f => OutLine.fixedFile f.1)
            ++ [OutLine.done])
    ∧ (runFixNsFiles files).stdout
        = [OutLine.fixedCount ((files.filter fileChanged).length)] :=
  ⟨runFixNamespaces_stdout files hok, (runFixNsFiles_spec files).2.1⟩

theorem C8_transcript_amended_witness :
    (runFixNamespaces [("a.cs", Except.ok lit1)]).stdout
      = OutLine.found 1 :: ([OutLine.fixedFile "a.cs"] ++ [OutLine.done])
    ∧ (runFixNsFiles [("a.cs", Except.ok lit1)]).stdout
      = [OutLine.fixedCount 1] := by
  have h := C8_transcript_amended [("a.cs", Except.ok lit1)] ?hok
  case hok =>
    intro f hf e
    rw [List.mem_singleton] at hf
    rw [hf]
    simp
  obtain ⟨ha, hb⟩ := h
  have hch := fileChanged_ok_lit1 "a.cs"
  constructor
  · rw [ha]
    simp [hch]
  · rw [hb]
    simp [hch]

/-- C6 counterexample: `fix-namespaces.py` prints the caught per-file
error with a plain `print`: on a run over one unreadable file the error
line lands in stdout, the same stream as the progress lines, and the
script's stderr stays empty — there is no error channel distinct from the
progress channel. -/
theorem C6_error_channel_cex :
    OutLine.errorLine "a.cs" FileErr.ioError ∈
        (runFixNamespaces [("a.cs", Except.error FileErr.ioError)]).stdout
    ∧ (runFixNamespaces [("a.cs", Except.error FileErr.ioError)]).stderr
        = [] := by
  constructor
  · simp [runFixNamespaces, processFile]
  · rfl

/-- C6 (amended): a per-file read or decode error is caught and the run
continues: the whole list is still processed and the modified count is the
count of cleanly-changed files, excluding the failed one (an erroring file
never counts as changed); the error is logged with the offending path —
in `fix-ns.py` to stderr, with stdout free of error lines, but in
`fix-namespaces.py` to stdout itself, whose stderr stays empty. -/
theorem C6_error_handling (files : List (String × Except FileErr (List Char)))
    (p : String) (e : FileErr) (hmem : (p, Except.error e) ∈ files) :
    OutLine.errorLine p e ∈ (runFixNsFiles files).stderr
    ∧ (∀ l ∈ (runFixNsFiles files).stdout, ∀ q d, l ≠ OutLine.errorLine q d)
    ∧ (runFixNsFiles files).fixedCount = (files.filter fileChanged).length
    ∧ fileChanged (p, Except.error e) = false
    ∧ OutLine.errorLine p e ∈ (runFixNamespaces files).stdout
    ∧ (runFixNamespaces files).stderr = [] := by
  obtain ⟨hcount, hstdout, hstderr, _, _⟩ := runFixNsFiles_spec files
  refine ⟨?_, ?_, hcount, rfl, ?_, rfl⟩
  · rw [hstderr]
    rw [List.mem_flatMap]
    exact ⟨(p, Except.error e), hmem, by simp [fix_file]⟩
  · rw [hstdout]
    intro l hl q d
    rw [List.mem_singleton] at hl
    rw [hl]
    simp
  · show OutLine.errorLine p e ∈ OutLine.found files.length ::
      ((files.flatMap fun f => (processFile f.1 f.2).2) ++ [OutLine.done])
    refine List.mem_cons_of_mem _ (List.mem_append_left _ ?_)
    rw [List.mem_flatMap]
    exact ⟨(p, Except.error e), hmem, by simp [processFile]⟩

theorem C6_error_handling_witness :
    OutLine.errorLine "a.cs" FileErr.decodeError ∈
        (runFixNsFiles [("a.cs", Except.error FileErr.decodeError)]).stderr
    ∧ (∀ l ∈ (runFixNsFiles [("a.cs", Except.error FileErr.decodeError)]).stdout,
        ∀ q d, l ≠ OutLine.errorLine q d)
    ∧ (runFixNsFiles [("a.cs", Except.error FileErr.decodeError)]).fixedCount
        = ([("a.cs", Except.error FileErr.decodeError)].filter fileChanged).length
    ∧ fileChanged ("a.cs", Except.error FileErr.decodeError) = false
    ∧ OutLine.errorLine "a.cs" FileErr.decodeError ∈
        (runFixNamespaces [("a.cs", Except.error FileErr.decodeError)]).stdout
    ∧ (runFixNamespaces [("a.cs", Except.error FileErr.decodeError)]).stderr
        = [] :=
  C6_error_handling [("a.cs", Except.error FileErr.decodeError)] "a.cs"
    FileErr.decodeError (List.mem_singleton.mpr rfl)
